import Mathlib

/-!
Verification of the core MIME-detection module (`mime.go`) of the mimetype
library: the hierarchical detector tree, its depth-first first-match descent,
clone-based result construction, charset augmentation, `Is` comparison, and
runtime tree extension via `Extend`.

Modelling conventions:
* Go byte slices are `List Nat`, the `uint32` read limit is a `Nat` (no
  arithmetic is performed on it).
* Go strings are Lean `String`s; string scanning from the Go standard
  library is implemented over `List Char` (ASCII-faithful: Go operates on
  bytes/runes, which coincide with `Char` for the ASCII inputs of interest).
* Go `map[string]string` values are association lists without duplicate
  keys (`Params`); writing `m[k] = v` is `setParam`.
* Detectors (`internal/magic.Detector`) are opaque pure functions
  `List Nat → Nat → Bool`, exactly the contract the spec gives them.
* The pure tree model (`MIME`) carries children inline; the parent pointer
  of the Go struct is represented by the ancestor list threaded through
  `matchGo` (Go reaches ancestors through `parent` pointers; matching is
  started from the root with an empty ancestor list, as `root.match` has a
  nil parent). A separate store model (`Heap`, `GoMIME`) captures the
  pointer/allocation facts: clone freshness, copy-on-write child lists,
  and mutation of results.
-/

/-- Go `map[string]string` as an association list without duplicate keys. -/
abbrev Params := List (String × String)

/-- Embeds `internal/magic.Detector`: `func([]byte, uint32) bool`. -/
abbrev Detector := List Nat → Nat → Bool

/-- Association-list lookup, `v, ok := m[k]`. -/
def lookupParam : Params → String → Option String
  | [], _ => none
  | (k', v) :: rest, k => if k' = k then some v else lookupParam rest k

/-- Go map write `m[k] = v`: replaces the value when the key is present,
otherwise adds the binding. -/
def setParam : Params → String → String → Params
  | [], k, v => [(k, v)]
  | (k', v') :: rest, k, v =>
    if k' = k then (k, v) :: rest else (k', v') :: setParam rest k v

/-- The two copy loops of `MIME.clone`: a fresh map holding `base`'s entries
with `extra`'s entries then written on top (`extra` wins on key collision). -/
def mergeParams (base extra : Params) : Params :=
  extra.foldl (fun acc kv => setParam acc kv.1 kv.2) base

/-!
Embedding of the Go standard library `mime.ParseMediaType` (package `mime`,
file `mediatype.go`), which `MIME.Is` and `MIME.Extend` call with the error
discarded.  The media-type extraction and every error path are transcribed
from the Go implementation; the only simplification is that RFC 2231
continuation/starred parameters (`name*`, `name*0`, ...) are collected for
the duplicate-name check but their post-loop stitching and percent-decoding
into the final parameter map is omitted — no claim below evaluates the
parser on such inputs, and that stage can neither fail nor change the
returned media type.  Whitespace and lower-casing are the ASCII parts of
Go's Unicode versions.
-/

/-- Go `unicode.IsSpace` restricted to Latin-1 (the ASCII fragment plus
U+0085 and U+00A0), which is what `strings.TrimSpace`/`TrimLeftFunc` use. -/
def isSpaceChar (c : Char) : Bool :=
  c == ' ' || c == '\t' || c == '\n' || c == '\x0b' || c == '\x0c' || c == '\r' ||
    c.toNat == 0x85 || c.toNat == 0xa0

/-- The `tspecials` set from RFC 1521/2045, as listed in Go `mime/grammar.go`. -/
def isTSpecial (c : Char) : Bool :=
  ['(', ')', '<', '>', '@', ',', ';', ':', '\\', '\"', '/', '[', ']', '?', '='].contains c

/-- Go `isTokenChar`: printable US-ASCII other than space and tspecials. -/
def isTokenChar (c : Char) : Bool :=
  0x20 < c.toNat && c.toNat < 0x7f && !isTSpecial c

/-- Go `strings.TrimLeftFunc` with `unicode.IsSpace`. -/
def trimLeftChars (l : List Char) : List Char := l.dropWhile isSpaceChar

/-- Go `strings.TrimSpace`. -/
def trimChars (l : List Char) : List Char :=
  (trimLeftChars (trimLeftChars l).reverse).reverse

/-- Go `strings.ToLower`, ASCII fragment. -/
def lowerChars (l : List Char) : List Char := l.map Char.toLower

/-- Go `consumeToken`: the longest token-character prefix and the remainder. -/
def consumeToken (l : List Char) : List Char × List Char :=
  (l.takeWhile isTokenChar, l.dropWhile isTokenChar)

/-- Go `checkMediaTypeDisposition`: a bare token, or token `/` token, with
nothing following. -/
def checkMediaTypeDisposition (l : List Char) : Bool :=
  let p := consumeToken l
  if p.1 = [] then false
  else
    match p.2 with
    | [] => true
    | '/' :: r2 =>
      let q := consumeToken r2
      if q.1 = [] then false else q.2 = []
    | _ => false

/-- The quoted-string loop of Go `consumeValue`: scan after the opening
quote, unescaping backslash-tspecial pairs, failing (returning the whole
original input) on a bare CR/LF or a missing closing quote. -/
def consumeQuoted (orig : List Char) : List Char → List Char → List Char × List Char
  | _, [] => ([], orig)
  | acc, '\"' :: rest => (acc.reverse, rest)
  | acc, '\\' :: d :: rest =>
    if isTSpecial d then consumeQuoted orig (d :: acc) rest
    else consumeQuoted orig ('\\' :: acc) (d :: rest)
  | acc, c :: rest =>
    if c = '\r' ∨ c = '\n' then ([], orig)
    else consumeQuoted orig (c :: acc) rest

/-- Go `consumeValue`: a token, or a double-quoted string. -/
def consumeValue (v : List Char) : List Char × List Char :=
  match v with
  | [] => ([], v)
  | '\"' :: rest => consumeQuoted v [] rest
  | _ => consumeToken v

/-- Go `consumeMediaParam`: `;`, attribute token (lower-cased), `=`, value,
with optional whitespace between the pieces; on failure returns empty
attribute and value and the original input as the rest. -/
def consumeMediaParam (v : List Char) : String × String × List Char :=
  let rest := trimLeftChars v
  match rest with
  | ';' :: rest1 =>
    let rest2 := trimLeftChars rest1
    let tok := consumeToken rest2
    if tok.1 = [] then ("", "", v)
    else
      let rest4 := trimLeftChars tok.2
      match rest4 with
      | '=' :: rest5 =>
        let rest6 := trimLeftChars rest5
        let val := consumeValue rest6
        if val.1 = [] ∧ val.2 = rest6 then ("", "", v)
        else (String.mk (lowerChars tok.1), String.mk val.1, val.2)
      | _ => ("", "", v)
  | _ => ("", "", v)

/-- Per-base-name parameter maps for starred (RFC 2231) attributes, Go's
`continuation` map. -/
abbrev ContMap := List (String × Params)

def lookupCont : ContMap → String → Option Params
  | [], _ => none
  | (k', v) :: rest, k => if k' = k then some v else lookupCont rest k

def setCont : ContMap → String → Params → ContMap
  | [], k, v => [(k, v)]
  | (k', v') :: rest, k, v =>
    if k' = k then (k, v) :: rest else (k', v') :: setCont rest k v

/-- Go `strings.Cut(param, "*")`: the base name when the attribute contains a
star, `none` otherwise. -/
def starBaseName (p : String) : Option String :=
  if p.toList.contains '*' then
    some (String.mk (p.toList.takeWhile (fun c => !(c == '*'))))
  else none

/-- The parameter loop of Go `ParseMediaType`.  Returns
(parse succeeded, media type as returned, parameters as returned) — exactly
the triple the caller sees, with the `error` collapsed to the Bool.  Error
cases transcribed from Go: a malformed parameter returns the media type with
nil parameters (`ErrInvalidMediaParameter`); a duplicate attribute with a
different value returns an empty media type and nil parameters.  The fuel
argument only bounds the recursion; each iteration consumes at least the
`;`, so `length + 1` fuel never runs out. -/
def paramLoop : Nat → String → Params → ContMap → List Char → Bool × String × Params
  | 0, _, _, _, _ => (false, "", [])
  | fuel + 1, mediatype, params, contMap, v =>
    if v = [] then (true, mediatype, params)
    else
      let v1 := trimLeftChars v
      if v1 = [] then (true, mediatype, params)
      else
        let r := consumeMediaParam v1
        if r.1 = "" then
          if trimChars r.2.2 = [';'] then (true, mediatype, params)
          else (false, mediatype, [])
        else
          match starBaseName r.1 with
          | some baseName =>
            let pmap := (lookupCont contMap baseName).getD []
            match lookupParam pmap r.1 with
            | some w =>
              if w ≠ r.2.1 then (false, "", [])
              else paramLoop fuel mediatype params
                (setCont contMap baseName (setParam pmap r.1 r.2.1)) r.2.2
            | none => paramLoop fuel mediatype params
                (setCont contMap baseName (setParam pmap r.1 r.2.1)) r.2.2
          | none =>
            match lookupParam params r.1 with
            | some w =>
              if w ≠ r.2.1 then (false, "", [])
              else paramLoop fuel mediatype (setParam params r.1 r.2.1) contMap r.2.2
            | none => paramLoop fuel mediatype (setParam params r.1 r.2.1) contMap r.2.2

/-- Go `mime.ParseMediaType` with the error collapsed into the leading Bool
(`true` = parsed without error), since the repository always discards the
error: cut at the first `;`, trim and lower-case the base, validate it (on
failure Go returns an empty string and nil parameters), then run the
parameter loop on the remainder. -/
def parseMediaType (v : String) : Bool × String × Params :=
  let l := v.toList
  let base := l.takeWhile (fun c => !(c == ';'))
  let mtChars := lowerChars (trimChars base)
  if !checkMediaTypeDisposition mtChars then (false, "", [])
  else paramLoop (l.length + 1) (String.mk mtChars) [] [] (l.drop base.length)

/-- The lower-cased, trimmed base media type of a string (what Go computes
before validating): the value `ParseMediaType` reports whenever it does not
report the empty string. -/
def mediatypeOf (v : String) : String :=
  String.mk (lowerChars (trimChars (v.toList.takeWhile (fun c => !(c == ';')))))

/-!
The detector tree (`types` package values and the `MIME` struct of
`mime.go`).
-/

namespace types

/-- Modelled from the spec: the `types` package (not part of the visible
core) supplies the type identifiers; the spec distinguishes exactly three
charset families — generic text, markup-HTML and markup-XML — whose
identifiers appear in the spec as "text/plain" and "text/html" (the XML
value follows the same naming scheme; only its distinctness from the other
two matters below). -/
def TEXT : String := "text/plain"

/-- Modelled from the spec: the markup-HTML family identifier. -/
def HTML : String := "text/html"

/-- Modelled from the spec: the markup-XML family identifier. -/
def XML : String := "text/xml"

end types

/-- Modelled from the spec: the externally-supplied charset-detection
collaborators (`internal/charset.FromPlain/FromHTML/FromXML`), consumed as
a keyed function contract `(bytes) -> string` where the empty string means
no override.  The development is parametric in them. -/
structure CharsetFns where
  FromPlain : List Nat → String
  FromHTML : List Nat → String
  FromXML : List Nat → String

/-- The `MIME` struct of `mime.go`: type identifier, aliases, params,
extension, detector and the ordered children list.  The `parent` pointer is
represented externally as the list of ancestors from the immediate parent
to the root (see the module comment). -/
inductive MIME where
  | mk : String → List String → Params → String → Detector → List MIME → MIME

def MIME.typ : MIME → String
  | .mk t _ _ _ _ _ => t

def MIME.aliases : MIME → List String
  | .mk _ al _ _ _ _ => al

def MIME.params : MIME → Params
  | .mk _ _ ps _ _ _ => ps

def MIME.extension : MIME → String
  | .mk _ _ _ ext _ _ => ext

def MIME.detector : MIME → Detector
  | .mk _ _ _ _ d _ => d

def MIME.children : MIME → List MIME
  | .mk _ _ _ _ _ cs => cs

/-- The observable data of a node: everything `clone` copies
(`typ`, `aliases`, `params`, `extension`). -/
def MIME.obs (m : MIME) : String × List String × Params × String :=
  (m.typ, m.aliases, m.params, m.extension)

lemma MIME.children_sizeOf (m : MIME) : sizeOf m.children < sizeOf m := by
  cases m with
  | mk t al ps ext d cs => simp [MIME.children]

/-- A matching result: what Go's `clone` allocates — type, aliases, params,
extension and the parent link; cloned nodes have nil children and nil
detector, so the result type carries neither. -/
inductive RMIME where
  | mk : String → List String → Params → String → Option RMIME → RMIME

def RMIME.typ : RMIME → String
  | .mk t _ _ _ _ => t

def RMIME.aliases : RMIME → List String
  | .mk _ al _ _ _ => al

def RMIME.params : RMIME → Params
  | .mk _ _ ps _ _ => ps

def RMIME.extension : RMIME → String
  | .mk _ _ _ ext _ => ext

/-- Embeds `MIME.Parent()` on a result. -/
def RMIME.parent : RMIME → Option RMIME
  | .mk _ _ _ _ p => p

/-- Embeds `MIME.clone` of `mime.go`: a fresh node copying `typ`, `aliases`,
`extension`, with a fresh parameter map holding the node's params overlaid
by the optional params `ps` (nil parent, nil children, nil detector). -/
def MIME.clone (m : MIME) (ps : Params) : RMIME :=
  .mk m.typ m.aliases (mergeParams m.params ps) m.extension none

/-- The `lastChild.parent = pClone` assignment of `cloneHierarchy`. -/
def RMIME.withParent : RMIME → Option RMIME → RMIME
  | .mk t al ps ext _, p => .mk t al ps ext p

/-- The loop of `MIME.cloneHierarchy`: walking `m.Parent()` upwards, each
ancestor is cloned with nil optional params and linked as the parent of the
previous clone. -/
def buildParents : List MIME → Option RMIME
  | [] => none
  | p :: rest => some ((p.clone []).withParent (buildParents rest))

/-- Embeds `MIME.cloneHierarchy` of `mime.go`: clone `m` with the optional params
`ps`, then attach the cloned ancestor chain as its parents. -/
def MIME.cloneHierarchy (m : MIME) (ancestors : List MIME) (ps : Params) : RMIME :=
  (m.clone ps).withParent (buildParents ancestors)

/-- The `needsCharset` map literal built in `MIME.match`, as a lookup keyed
by the three distinguished type identifiers. -/
def needsCharset (cs : CharsetFns) (t : String) : Option (List Nat → String) :=
  if t = types.TEXT then some cs.FromPlain
  else if t = types.HTML then some cs.FromHTML
  else if t = types.XML then some cs.FromXML
  else none

/-- The charset-augmentation step of `MIME.match`: `ps` starts empty; when
the terminal type is one of the three families, the registered function is
applied to the full raw input (not truncated to the read limit) and a
non-empty label is written as `ps["charset"]`. -/
def charsetFor (cs : CharsetFns) (t : String) (input : List Nat) : Params :=
  match needsCharset cs t with
  | some f => if f input = "" then [] else [("charset", f input)]
  | none => []

mutual

/-- Embeds `MIME.match` of `mime.go`: scan the children in list order, descend
into the first child whose detector accepts, and when none accepts clone
the current node and its ancestor chain with the optional charset params.
Note the current node's own detector is never consulted. -/
def MIME.matchGo (cs : CharsetFns) (input : List Nat) (readLimit : Nat)
    (m : MIME) (anc : List MIME) : RMIME :=
  matchChildren cs input readLimit m m.children anc
termination_by sizeOf m
decreasing_by exact MIME.children_sizeOf m

/-- The `for _, c := range m.children` loop of `MIME.match`. -/
def matchChildren (cs : CharsetFns) (input : List Nat) (readLimit : Nat)
    (m : MIME) (l : List MIME) (anc : List MIME) : RMIME :=
  match l with
  | [] => m.cloneHierarchy anc (charsetFor cs m.typ input)
  | c :: rest =>
    if c.detector input readLimit then MIME.matchGo cs input readLimit c (m :: anc)
    else matchChildren cs input readLimit m rest anc
termination_by sizeOf l
decreasing_by
  all_goals simp
  all_goals omega

end

mutual

/-- The descent of `MIME.match` without the cloning: the terminal node and
its ancestor list.  `matchGo` is proved equal to `cloneHierarchy` of this
terminal (`matchGo_eq_terminal`). -/
def terminalNode (input : List Nat) (readLimit : Nat)
    (m : MIME) (anc : List MIME) : MIME × List MIME :=
  terminalChildren input readLimit m m.children anc
termination_by sizeOf m
decreasing_by exact MIME.children_sizeOf m

/-- Children loop of `terminalNode`. -/
def terminalChildren (input : List Nat) (readLimit : Nat)
    (m : MIME) (l : List MIME) (anc : List MIME) : MIME × List MIME :=
  match l with
  | [] => (m, anc)
  | c :: rest =>
    if c.detector input readLimit then terminalNode input readLimit c (m :: anc)
    else terminalChildren input readLimit m rest anc
termination_by sizeOf l
decreasing_by
  all_goals simp
  all_goals omega

end

/-- The chain of a result: the result followed by all its `Parent()`s. -/
def RMIME.chain : RMIME → List RMIME
  | .mk t al ps ext none => [.mk t al ps ext none]
  | .mk t al ps ext (some p) => .mk t al ps ext (some p) :: p.chain

/-- Iterates `Parent()` calls `n` times. -/
def parentIter : Nat → RMIME → Option RMIME
  | 0, r => some r
  | n + 1, r =>
    match r.parent with
    | none => none
    | some p => parentIter n p

/-- Follow `Parent()` to the end of the chain. -/
def RMIME.rootOf : RMIME → RMIME
  | .mk t al ps ext none => .mk t al ps ext none
  | .mk _ _ _ _ (some p) => p.rootOf

/-- Embeds `MIME.Is` of `mime.go`: parse the expected string with the error
discarded (so the media type Go returned *alongside* a parse error is used
as-is), then compare against `typ` and each alias. -/
def MIME.Is (m : MIME) (expectedMIME : String) : Bool :=
  let expected := (parseMediaType expectedMIME).2.1
  if expected = m.typ then true
  else m.aliases.contains expected

/-- Embeds `MIME.Extend` of `mime.go`, pure view: parse the type string with the
error discarded, build the childless node and prepend it to the children
list (`append([]*MIME{c}, m.children...)`).  The new node's parent pointer
(set to `m` in Go) is captured by the store-level `ExtendS`. -/
def MIME.Extend (m : MIME) (detector : Detector) (mimestr extension : String)
    (aliases : List String) : MIME :=
  let pr := parseMediaType mimestr
  let c : MIME := .mk pr.2.1 aliases pr.2.2 extension detector []
  .mk m.typ m.aliases m.params m.extension m.detector (c :: m.children)

/-!
Store model: Go heap objects and allocation, for the claims about pointer
freshness, result mutation and copy-on-write child lists.  `GoMIME` is the
`MIME` struct as a heap object: `children` is a pointer to a slice object
(`none` = nil slice) and `parent` a pointer to another object.  The
canonical tree itself is never written by `match`/`clone` (they only read
it), so it stays a pure `MIME` value; the heap holds the allocated result
objects and the slice objects written by `Extend`.
-/

/-- The `MIME` struct as a heap object (pointer fields as addresses). -/
structure GoMIME where
  typ : String
  aliases : List String
  params : Params
  extension : String
  detector : Option Detector
  children : Option Nat
  parent : Option Nat

/-- The observable (value) fields of a heap object: what a caller reads
through `Type()`, `String()`, `Extension()` and the aliases. -/
def GoMIME.obsG (o : GoMIME) : String × List String × Params × String :=
  (o.typ, o.aliases, o.params, o.extension)

/-- A heap of MIME objects and of children-slice objects. -/
structure Heap where
  objs : List GoMIME
  slices : List (List Nat)

/-- Allocation, Go `new`/composite literal: allocate a fresh object, returning its address. -/
def Heap.allocObj (h : Heap) (o : GoMIME) : Nat × Heap :=
  (h.objs.length, ⟨h.objs ++ [o], h.slices⟩)

/-- Pointer dereference. -/
def Heap.getObj (h : Heap) (a : Nat) : Option GoMIME := h.objs[a]?

/-- Write through a pointer. -/
def Heap.setObj (h : Heap) (a : Nat) (o : GoMIME) : Heap := ⟨h.objs.set a o, h.slices⟩

/-- Allocates a fresh backing array for a slice, as Go `append` does here. -/
def Heap.allocSlice (h : Heap) (s : List Nat) : Nat × Heap :=
  (h.slices.length, ⟨h.objs, h.slices ++ [s]⟩)

/-- Read a children slice (`none` is Go's nil slice, which iterates as
empty). -/
def Heap.readSlice (h : Heap) : Option Nat → List Nat
  | none => []
  | some sp => (h.slices[sp]?).getD []

/-- Store-level `MIME.clone`: allocates the fresh result object; `children`,
`detector` and `parent` are the Go zero values (nil), the parameter map is
fresh (the node's own params overlaid by `ps`). -/
def cloneS (h : Heap) (m : MIME) (ps : Params) : Nat × Heap :=
  h.allocObj ⟨m.typ, m.aliases, mergeParams m.params ps, m.extension, none, none, none⟩

/-- Store-level loop of `cloneHierarchy`: for each ancestor, allocate its
clone with nil optional params and write its address into the previous
clone's `parent` field. -/
def cloneHierarchyLoop (h : Heap) (lastChild : Nat) : List MIME → Heap
  | [] => h
  | p :: rest =>
    let pc := cloneS h p []
    let h2 :=
      match pc.2.getObj lastChild with
      | some o =>
        pc.2.setObj lastChild ⟨o.typ, o.aliases, o.params, o.extension, o.detector, o.children, some pc.1⟩
      | none => pc.2
    cloneHierarchyLoop h2 pc.1 rest

/-- Store-level `MIME.cloneHierarchy`. -/
def cloneHierarchyS (h : Heap) (m : MIME) (ancestors : List MIME) (ps : Params) : Nat × Heap :=
  let ret := cloneS h m ps
  (ret.1, cloneHierarchyLoop ret.2 ret.1 ancestors)

/-- Store-level `MIME.match`: the descent reads only the canonical tree (a
pure value — `match` performs no writes before `cloneHierarchy`), then the
result chain is allocated exactly as `cloneHierarchy` does. -/
def matchS (cs : CharsetFns) (h : Heap) (m : MIME) (anc : List MIME)
    (input : List Nat) (readLimit : Nat) : Nat × Heap :=
  let t := terminalNode input readLimit m anc
  cloneHierarchyS h t.1 t.2 (charsetFor cs t.1.typ input)

/-- Mutating a result's parameter map through its pointer:
`r.params[k] = v`. -/
def setParamS (h : Heap) (a : Nat) (k v : String) : Heap :=
  match h.getObj a with
  | none => h
  | some o =>
    h.setObj a ⟨o.typ, o.aliases, setParam o.params k v, o.extension, o.detector, o.children, o.parent⟩

/-- Store-level `MIME.Extend`: parse the type string with the error
discarded, allocate the childless node with `parent` set to the target,
allocate a NEW slice holding the new address followed by the target's
current children (`append([]*MIME{c}, m.children...)` — the old slice
object is never written), and point the target's `children` field at the
new slice.  The `mu` lock that serialises concurrent calls is outside this
sequential model. -/
def ExtendS (h : Heap) (a : Nat) (det : Detector) (mimestr extension : String)
    (aliases : List String) : Heap :=
  match h.getObj a with
  | none => h
  | some m =>
    let pr := parseMediaType mimestr
    let c : GoMIME := ⟨pr.2.1, aliases, pr.2.2, extension, some det, none, some a⟩
    let ca := h.allocObj c
    let sa := ca.2.allocSlice (ca.1 :: ca.2.readSlice m.children)
    sa.2.setObj a ⟨m.typ, m.aliases, m.params, m.extension, m.detector, some sa.1, m.parent⟩

/-- Closed form of the ancestor clones `cloneHierarchyLoop` appends,
starting at address `base`: each points to the next, the last has nil
parent. -/
def ancObjs (base : Nat) : List MIME → List GoMIME
  | [] => []
  | p :: rest =>
    ⟨p.typ, p.aliases, mergeParams p.params [], p.extension, none, none,
      if rest.isEmpty then none else some (base + 1)⟩ :: ancObjs (base + 1) rest

/-- Closed form of the whole chain `cloneHierarchyS` appends at `base`. -/
def chainObjs (base : Nat) (m : MIME) (ancestors : List MIME) (ps : Params) : List GoMIME :=
  ⟨m.typ, m.aliases, mergeParams m.params ps, m.extension, none, none,
    if ancestors.isEmpty then none else some (base + 1)⟩ :: ancObjs (base + 1) ancestors

/-- The observable content of the chain a `matchS` call allocates. -/
def matchedChainObs (cs : CharsetFns) (h : Heap) (t : MIME)
    (input : List Nat) (readLimit : Nat) : List (String × List String × Params × String) :=
  ((matchS cs h t [] input readLimit).2.objs.drop h.objs.length).map GoMIME.obsG

/-- A charset-collaborator instance that never detects anything, used for
concrete instances of the theorems below. -/
def csEmpty : CharsetFns := ⟨fun _ => "", fun _ => "", fun _ => ""⟩

/-- A childless concrete node, used for concrete instances. -/
def wLeaf : MIME := .mk "t/w" [] [] "" (fun _ _ => false) []

/-- The heap object the clone of `wLeaf` allocates. -/
def wLeafObj : GoMIME := ⟨"t/w", [], [], "", none, none, none⟩

/-! Basic lemmas about parameter maps and clones. -/

lemma mergeParams_nil (p : Params) : mergeParams p [] = p := rfl

lemma lookupParam_setParam (p : Params) (k v k' : String) :
    lookupParam (setParam p k v) k' = if k = k' then some v else lookupParam p k' := by
  induction p with
  | nil => simp [setParam, lookupParam]
  | cons kv rest ih =>
    obtain ⟨k0, v0⟩ := kv
    by_cases h0 : k0 = k
    · subst h0
      by_cases h1 : k0 = k'
      · subst h1; simp [setParam, lookupParam]
      · simp [setParam, lookupParam, h1, Ne.symm h1]
    · by_cases h1 : k0 = k'
      · subst h1
        have : ¬ k = k0 := fun h => h0 h.symm
        simp [setParam, lookupParam, h0, this]
      · simp [setParam, lookupParam, h0, h1, ih]

lemma lookupParam_merge_single (p : Params) (k v k' : String) :
    lookupParam (mergeParams p [(k, v)]) k' = if k = k' then some v else lookupParam p k' := by
  simpa [mergeParams] using lookupParam_setParam p k v k'

lemma MIME.obs_typ (m : MIME) : m.obs.1 = m.typ := rfl

lemma MIME.clone_congr {p q : MIME} (h : p.obs = q.obs) (ps : Params) :
    p.clone ps = q.clone ps := by
  have h1 : p.typ = q.typ := congrArg (fun x => x.1) h
  have h2 : p.aliases = q.aliases := congrArg (fun x => x.2.1) h
  have h3 : p.params = q.params := congrArg (fun x => x.2.2.1) h
  have h4 : p.extension = q.extension := congrArg (fun x => x.2.2.2) h
  simp [MIME.clone, h1, h2, h3, h4]

lemma buildParents_congr : ∀ {a b : List MIME}, a.map MIME.obs = b.map MIME.obs →
    buildParents a = buildParents b := by
  intro a
  induction a with
  | nil => intro b h; cases b with
    | nil => rfl
    | cons x xs => simp at h
  | cons p rest ih =>
    intro b h
    cases b with
    | nil => simp at h
    | cons q qs =>
      simp only [List.map_cons, List.cons.injEq] at h
      rw [buildParents, buildParents, ih h.2, MIME.clone_congr h.1]

lemma cloneHierarchy_congr {p q : MIME} {a b : List MIME}
    (h : p.obs = q.obs) (h2 : a.map MIME.obs = b.map MIME.obs) (ps : Params) :
    p.cloneHierarchy a ps = q.cloneHierarchy b ps := by
  rw [MIME.cloneHierarchy, MIME.cloneHierarchy, MIME.clone_congr h, buildParents_congr h2]

lemma cloneHierarchy_typ (m : MIME) (anc : List MIME) (ps : Params) :
    (m.cloneHierarchy anc ps).typ = m.typ := by
  simp [MIME.cloneHierarchy, MIME.clone, RMIME.withParent, RMIME.typ]

lemma cloneHierarchy_aliases (m : MIME) (anc : List MIME) (ps : Params) :
    (m.cloneHierarchy anc ps).aliases = m.aliases := by
  simp [MIME.cloneHierarchy, MIME.clone, RMIME.withParent, RMIME.aliases]

lemma cloneHierarchy_extension (m : MIME) (anc : List MIME) (ps : Params) :
    (m.cloneHierarchy anc ps).extension = m.extension := by
  simp [MIME.cloneHierarchy, MIME.clone, RMIME.withParent, RMIME.extension]

lemma cloneHierarchy_params (m : MIME) (anc : List MIME) (ps : Params) :
    (m.cloneHierarchy anc ps).params = mergeParams m.params ps := by
  simp [MIME.cloneHierarchy, MIME.clone, RMIME.withParent, RMIME.params]

/-! Lemmas about result chains. -/

lemma chain_mk_buildParents : ∀ (anc : List MIME) (t : String) (al : List String)
    (ps : Params) (ext : String),
    (RMIME.mk t al ps ext (buildParents anc)).chain.map RMIME.params
      = ps :: anc.map MIME.params := by
  intro anc
  induction anc with
  | nil => intro t al ps ext; simp [buildParents, RMIME.chain, RMIME.params]
  | cons p rest ih =>
    intro t al ps ext
    have hq : buildParents (p :: rest)
        = some (RMIME.mk p.typ p.aliases p.params p.extension (buildParents rest)) := by
      rw [buildParents, MIME.clone, mergeParams_nil, RMIME.withParent]
    rw [hq]
    simp only [RMIME.chain, List.map_cons, RMIME.params]
    rw [ih p.typ p.aliases p.params p.extension]

lemma cloneHierarchy_chain_params (m : MIME) (anc : List MIME) (ps : Params) :
    (m.cloneHierarchy anc ps).chain.map RMIME.params
      = mergeParams m.params ps :: anc.map MIME.params := by
  rw [MIME.cloneHierarchy, MIME.clone, RMIME.withParent]
  exact chain_mk_buildParents anc _ _ _ _

lemma cloneHierarchy_chain_length (m : MIME) (anc : List MIME) (ps : Params) :
    (m.cloneHierarchy anc ps).chain.length = anc.length + 1 := by
  have h := cloneHierarchy_chain_params m anc ps
  have := congrArg List.length h
  simpa using this

lemma chain_ne_nil (r : RMIME) : r.chain ≠ [] := by
  cases r with
  | mk t al ps ext op =>
    cases op with
    | none => simp [RMIME.chain]
    | some p => simp [RMIME.chain]

lemma parentIter_chain_aux : ∀ (n : Nat) (r : RMIME), sizeOf r ≤ n →
    parentIter r.chain.length r = none := by
  intro n
  induction n using Nat.strong_induction_on with
  | _ n ih =>
    intro r hr
    cases r with
    | mk t al ps ext op =>
      cases op with
      | none => simp [RMIME.chain, parentIter, RMIME.parent]
      | some p =>
        have hp : sizeOf p < n := by
          have : sizeOf p < sizeOf (RMIME.mk t al ps ext (some p)) := by simp; omega
          omega
        simp only [RMIME.chain, List.length_cons]
        rw [parentIter]
        simp only [RMIME.parent]
        exact ih (sizeOf p) hp p (le_refl _)

lemma parentIter_chain (r : RMIME) : parentIter r.chain.length r = none :=
  parentIter_chain_aux (sizeOf r) r (le_refl _)

lemma rootOf_parent_aux : ∀ (n : Nat) (r : RMIME), sizeOf r ≤ n →
    r.rootOf.parent = none := by
  intro n
  induction n using Nat.strong_induction_on with
  | _ n ih =>
    intro r hr
    cases r with
    | mk t al ps ext op =>
      cases op with
      | none => simp [RMIME.rootOf, RMIME.parent]
      | some p =>
        have hp : sizeOf p < n := by
          have : sizeOf p < sizeOf (RMIME.mk t al ps ext (some p)) := by simp; omega
          omega
        rw [RMIME.rootOf]
        exact ih (sizeOf p) hp p (le_refl _)

lemma rootOf_parent_none (r : RMIME) : r.rootOf.parent = none :=
  rootOf_parent_aux (sizeOf r) r (le_refl _)

/-! The descent: `matchGo` is `cloneHierarchy` of the terminal node, and the
terminal computation only appends to the ancestor context. -/

lemma matchGo_eq_terminal_aux (cs : CharsetFns) (input : List Nat) (lim : Nat) :
    ∀ (n : Nat) (m : MIME), sizeOf m ≤ n → ∀ (anc : List MIME),
      MIME.matchGo cs input lim m anc
        = (terminalNode input lim m anc).1.cloneHierarchy (terminalNode input lim m anc).2
            (charsetFor cs (terminalNode input lim m anc).1.typ input) := by
  intro n
  induction n using Nat.strong_induction_on with
  | _ n ih =>
    intro m hm anc
    have hkids : ∀ c ∈ m.children, sizeOf c < n := by
      intro c hc
      have h1 := List.sizeOf_lt_of_mem hc
      have h2 := MIME.children_sizeOf m
      omega
    have hgen : ∀ l, (∀ c ∈ l, sizeOf c < n) → ∀ anc2,
        matchChildren cs input lim m l anc2
          = (terminalChildren input lim m l anc2).1.cloneHierarchy
              (terminalChildren input lim m l anc2).2
              (charsetFor cs (terminalChildren input lim m l anc2).1.typ input) := by
      intro l
      induction l with
      | nil =>
        intro _ anc2
        rw [matchChildren.eq_def, terminalChildren.eq_def]
      | cons c rest ihl =>
        intro hl anc2
        rw [matchChildren.eq_def, terminalChildren.eq_def]
        by_cases hd : c.detector input lim
        · simp only [hd, if_true]
          exact ih (sizeOf c) (hl c (List.mem_cons_self c rest)) c (le_refl _) (m :: anc2)
        · simp only [hd, if_false]
          exact ihl (fun x hx => hl x (List.mem_cons_of_mem c hx)) anc2
    rw [MIME.matchGo.eq_def, terminalNode.eq_def]
    exact hgen m.children hkids anc

/-- Lemma: `matchGo` clones the terminal node over its ancestor path with the
charset params computed from the terminal's type. -/
lemma matchGo_terminal (cs : CharsetFns) (input : List Nat) (lim : Nat)
    (m : MIME) (anc : List MIME) :
    MIME.matchGo cs input lim m anc
      = (terminalNode input lim m anc).1.cloneHierarchy (terminalNode input lim m anc).2
          (charsetFor cs (terminalNode input lim m anc).1.typ input) :=
  matchGo_eq_terminal_aux cs input lim (sizeOf m) m (le_refl _) anc

lemma terminal_ctx_aux (input : List Nat) (lim : Nat) :
    ∀ (n : Nat) (m : MIME), sizeOf m ≤ n → ∀ (anc : List MIME),
      terminalNode input lim m anc
        = ((terminalNode input lim m []).1, (terminalNode input lim m []).2 ++ anc) := by
  intro n
  induction n using Nat.strong_induction_on with
  | _ n ih =>
    intro m hm anc
    have hkids : ∀ c ∈ m.children, sizeOf c < n := by
      intro c hc
      have h1 := List.sizeOf_lt_of_mem hc
      have h2 := MIME.children_sizeOf m
      omega
    have hgen : ∀ l, (∀ c ∈ l, sizeOf c < n) → ∀ anc2,
        terminalChildren input lim m l anc2
          = ((terminalChildren input lim m l []).1,
              (terminalChildren input lim m l []).2 ++ anc2) := by
      intro l
      induction l with
      | nil =>
        intro _ anc2
        rw [terminalChildren.eq_def, terminalChildren.eq_def]
        rfl
      | cons c rest ihl =>
        intro hl anc2
        have hc : sizeOf c < n := hl c (List.mem_cons_self c rest)
        rw [terminalChildren.eq_def]
        rw [show terminalChildren input lim m (c :: rest) []
              = if c.detector input lim then terminalNode input lim c [m]
                else terminalChildren input lim m rest [] from by
          rw [terminalChildren.eq_def]]
        by_cases hd : c.detector input lim
        · simp only [hd, if_true]
          rw [ih (sizeOf c) hc c (le_refl _) (m :: anc2), ih (sizeOf c) hc c (le_refl _) [m]]
          simp
        · simp only [hd, if_false]
          exact ihl (fun x hx => hl x (List.mem_cons_of_mem c hx)) anc2
    rw [terminalNode.eq_def, terminalNode.eq_def]
    exact hgen m.children hkids anc

/-- The terminal node and the path down to it do not depend on the ancestor
context; the context is only appended. -/
lemma terminal_ctx (input : List Nat) (lim : Nat) (m : MIME) (anc : List MIME) :
    terminalNode input lim m anc
      = ((terminalNode input lim m []).1, (terminalNode input lim m []).2 ++ anc) :=
  terminal_ctx_aux input lim (sizeOf m) m (le_refl _) anc

/-- When every child's detector rejects the input, the loop falls through. -/
lemma terminalChildren_reject (input : List Nat) (lim : Nat) :
    ∀ (l : List MIME) (m : MIME) (anc : List MIME),
      (∀ c ∈ l, c.detector input lim = false) →
      terminalChildren input lim m l anc = (m, anc) := by
  intro l
  induction l with
  | nil => intro m anc _; rw [terminalChildren.eq_def]
  | cons c rest ihl =>
    intro m anc hl
    rw [terminalChildren.eq_def]
    simp only [hl c (List.mem_cons_self c rest), Bool.false_eq_true, if_false]
    exact ihl m anc (fun x hx => hl x (List.mem_cons_of_mem c hx))

/-- A node none of whose children accept is the terminal node. -/
lemma terminalNode_reject (input : List Nat) (lim : Nat) (m : MIME) (anc : List MIME)
    (h : ∀ c ∈ m.children, c.detector input lim = false) :
    terminalNode input lim m anc = (m, anc) := by
  rw [terminalNode.eq_def]
  exact terminalChildren_reject input lim m.children m anc h

/-- The first accepting child is descended into; later siblings are not
consulted. -/
lemma terminalChildren_first (input : List Nat) (lim : Nat) :
    ∀ (pre : List MIME) (c : MIME) (post : List MIME) (m : MIME) (anc : List MIME),
      (∀ p ∈ pre, p.detector input lim = false) → c.detector input lim = true →
      terminalChildren input lim m (pre ++ c :: post) anc
        = terminalNode input lim c (m :: anc) := by
  intro pre
  induction pre with
  | nil =>
    intro c post m anc _ hc
    rw [List.nil_append, terminalChildren.eq_def]
    simp only [hc, if_true]
  | cons p pre' ihp =>
    intro c post m anc hl hc
    rw [List.cons_append, terminalChildren.eq_def]
    simp only [hl p (List.mem_cons_self p pre'), Bool.false_eq_true, if_false]
    exact ihp c post m anc (fun x hx => hl x (List.mem_cons_of_mem p hx)) hc

/-- Lemma: `matchGo` depends on the ancestor context only through the observable
fields of the ancestors (the fields `clone` copies). -/
lemma matchGo_anc_congr (cs : CharsetFns) (input : List Nat) (lim : Nat) (m : MIME)
    {a b : List MIME} (h : a.map MIME.obs = b.map MIME.obs) :
    MIME.matchGo cs input lim m a = MIME.matchGo cs input lim m b := by
  rw [matchGo_terminal, matchGo_terminal, terminal_ctx input lim m a, terminal_ctx input lim m b]
  exact cloneHierarchy_congr rfl (by simp [h]) _

/-- Every children list either rejects the input entirely or splits at the
first accepting detector. -/
lemma detect_split (input : List Nat) (lim : Nat) :
    ∀ l : List MIME, (∀ c ∈ l, c.detector input lim = false) ∨
      ∃ pre c post, l = pre ++ c :: post ∧
        (∀ p ∈ pre, p.detector input lim = false) ∧ c.detector input lim = true := by
  intro l
  induction l with
  | nil => left; simp
  | cons c rest ih =>
    by_cases hc : c.detector input lim = true
    · right; exact ⟨[], c, rest, rfl, by simp, hc⟩
    · have hc' : c.detector input lim = false := by simpa using hc
      cases ih with
      | inl h =>
        left
        intro x hx
        rcases List.mem_cons.mp hx with h1 | h2
        · rw [h1]; exact hc'
        · exact h x h2
      | inr h =>
        right
        obtain ⟨pre, d, post, heq, hpre, hd⟩ := h
        refine ⟨c :: pre, d, post, by rw [heq, List.cons_append], ?_, hd⟩
        intro p hp
        rcases List.mem_cons.mp hp with h1 | h2
        · rw [h1]; exact hc'
        · exact hpre p h2

/-- Matching a node whose children split as rejecting prefix, accepting
child `c`, arbitrary suffix descends into `c`. -/
lemma matchGo_descend (cs : CharsetFns) (input : List Nat) (lim : Nat)
    (t : String) (al : List String) (ps : Params) (ext : String) (det : Detector)
    (pre : List MIME) (c : MIME) (post anc : List MIME)
    (hpre : ∀ p ∈ pre, p.detector input lim = false) (hc : c.detector input lim = true) :
    MIME.matchGo cs input lim (.mk t al ps ext det (pre ++ c :: post)) anc
      = MIME.matchGo cs input lim c ((MIME.mk t al ps ext det (pre ++ c :: post)) :: anc) := by
  rw [matchGo_terminal, matchGo_terminal]
  have hterm : terminalNode input lim (MIME.mk t al ps ext det (pre ++ c :: post)) anc
      = terminalNode input lim c ((MIME.mk t al ps ext det (pre ++ c :: post)) :: anc) := by
    rw [terminalNode.eq_def]
    exact terminalChildren_first input lim pre c post _ anc hpre hc
  rw [hterm]

/-- Matching a node none of whose children accept clones the node itself. -/
lemma matchGo_reject (cs : CharsetFns) (input : List Nat) (lim : Nat) (m : MIME)
    (anc : List MIME) (h : ∀ c ∈ m.children, c.detector input lim = false) :
    MIME.matchGo cs input lim m anc = m.cloneHierarchy anc (charsetFor cs m.typ input) := by
  rw [matchGo_terminal, terminalNode_reject input lim m anc h]

/-- Claim C1: for every input buffer and read limit, the terminal node is
selected by depth-first first-match descent: (1) with the children list
split as `pre ++ c :: post` where every detector in `pre` rejects and `c`
accepts, matching descends into `c` and (2) the result does not depend on
the siblings after `c` at all (they are never evaluated — no backtracking
into another branch); (3) when no child accepts, the current node is the
terminal match, equal to the clone of its hierarchy, and the result
carries its type, aliases and extension; (4) the node's own detector is
never invoked — the result is unchanged under arbitrary replacement of the
start node's detector. -/
theorem matchGo_first_match_descent (cs : CharsetFns) (input : List Nat) (lim : Nat) :
    (∀ (t : String) (al : List String) (ps : Params) (ext : String) (det : Detector)
        (pre : List MIME) (c : MIME) (post anc : List MIME),
      (∀ p ∈ pre, p.detector input lim = false) → c.detector input lim = true →
        MIME.matchGo cs input lim (.mk t al ps ext det (pre ++ c :: post)) anc
          = MIME.matchGo cs input lim c ((MIME.mk t al ps ext det (pre ++ c :: post)) :: anc))
    ∧ (∀ (t : String) (al : List String) (ps : Params) (ext : String) (det : Detector)
        (pre : List MIME) (c : MIME) (post post' anc : List MIME),
      (∀ p ∈ pre, p.detector input lim = false) → c.detector input lim = true →
        MIME.matchGo cs input lim (.mk t al ps ext det (pre ++ c :: post)) anc
          = MIME.matchGo cs input lim (.mk t al ps ext det (pre ++ c :: post')) anc)
    ∧ (∀ (t : String) (al : List String) (ps : Params) (ext : String) (det : Detector)
        (children anc : List MIME),
      (∀ c ∈ children, c.detector input lim = false) →
        MIME.matchGo cs input lim (.mk t al ps ext det children) anc
          = (MIME.mk t al ps ext det children).cloneHierarchy anc (charsetFor cs t input)
        ∧ (MIME.matchGo cs input lim (.mk t al ps ext det children) anc).typ = t
        ∧ (MIME.matchGo cs input lim (.mk t al ps ext det children) anc).aliases = al
        ∧ (MIME.matchGo cs input lim (.mk t al ps ext det children) anc).extension = ext)
    ∧ (∀ (t : String) (al : List String) (ps : Params) (ext : String) (det det' : Detector)
        (children anc : List MIME),
        MIME.matchGo cs input lim (.mk t al ps ext det children) anc
          = MIME.matchGo cs input lim (.mk t al ps ext det' children) anc) := by
  refine ⟨?_, ?_, ?_, ?_⟩
  · intro t al ps ext det pre c post anc hpre hc
    exact matchGo_descend cs input lim t al ps ext det pre c post anc hpre hc
  · intro t al ps ext det pre c post post' anc hpre hc
    rw [matchGo_descend cs input lim t al ps ext det pre c post anc hpre hc,
        matchGo_descend cs input lim t al ps ext det pre c post' anc hpre hc]
    exact matchGo_anc_congr cs input lim c (by simp [MIME.obs, MIME.typ, MIME.aliases,
      MIME.params, MIME.extension])
  · intro t al ps ext det children anc h
    have hr := matchGo_reject cs input lim (.mk t al ps ext det children) anc h
    refine ⟨hr, ?_, ?_, ?_⟩
    · rw [hr, cloneHierarchy_typ]; rfl
    · rw [hr, cloneHierarchy_aliases]; rfl
    · rw [hr, cloneHierarchy_extension]; rfl
  · intro t al ps ext det det' children anc
    rcases detect_split input lim children with h | ⟨pre, c, post, heq, hpre, hc⟩
    · rw [matchGo_reject cs input lim (.mk t al ps ext det children) anc h,
          matchGo_reject cs input lim (.mk t al ps ext det' children) anc h]
      exact cloneHierarchy_congr rfl rfl _
    · subst heq
      rw [matchGo_descend cs input lim t al ps ext det pre c post anc hpre hc,
          matchGo_descend cs input lim t al ps ext det' pre c post anc hpre hc]
      exact matchGo_anc_congr cs input lim c rfl

/-- Witness for C1 at a concrete tree: the first accepting child (the
second one) is descended into. -/
theorem matchGo_first_match_descent_witness :
    MIME.matchGo ⟨fun _ => "", fun _ => "", fun _ => ""⟩ [] 0
        (.mk "w/r" [] [] "" (fun _ _ => false)
          ([MIME.mk "w/a" [] [] "" (fun _ _ => false) []]
            ++ (MIME.mk "w/b" [] [] "" (fun _ _ => true) [])
            :: [MIME.mk "w/c" [] [] "" (fun _ _ => true) []])) []
      = MIME.matchGo ⟨fun _ => "", fun _ => "", fun _ => ""⟩ [] 0
          (MIME.mk "w/b" [] [] "" (fun _ _ => true) [])
          ((MIME.mk "w/r" [] [] "" (fun _ _ => false)
            ([MIME.mk "w/a" [] [] "" (fun _ _ => false) []]
              ++ (MIME.mk "w/b" [] [] "" (fun _ _ => true) [])
              :: [MIME.mk "w/c" [] [] "" (fun _ _ => true) []])) :: []) :=
  (matchGo_first_match_descent ⟨fun _ => "", fun _ => "", fun _ => ""⟩ [] 0).1
    "w/r" [] [] "" (fun _ _ => false)
    [MIME.mk "w/a" [] [] "" (fun _ _ => false) []]
    (MIME.mk "w/b" [] [] "" (fun _ _ => true) [])
    [MIME.mk "w/c" [] [] "" (fun _ _ => true) []] []
    (by intro p hp; simp at hp; rw [hp]; rfl) rfl

/-- Claim C2: matching is total (`matchGo` returns a result for every
buffer — including the empty one — and limit; its type is not fallible),
and the result's ancestor chain is finite: following `Parent()`
`chain.length` times reaches an absent parent, the final ancestor has an
absent parent, and the chain has one entry per ancestor of the terminal
node plus the terminal itself. -/
theorem matchGo_total_parent_chain (cs : CharsetFns) (t : MIME) (input : List Nat) (lim : Nat) :
    (MIME.matchGo cs input lim t []).chain ≠ []
    ∧ parentIter (MIME.matchGo cs input lim t []).chain.length
        (MIME.matchGo cs input lim t []) = none
    ∧ (MIME.matchGo cs input lim t []).rootOf.parent = none
    ∧ (MIME.matchGo cs input lim t []).chain.length
        = (terminalNode input lim t []).2.length + 1 := by
  refine ⟨chain_ne_nil _, parentIter_chain _, rootOf_parent_none _, ?_⟩
  rw [matchGo_terminal, cloneHierarchy_chain_length]

/-- Witness for C2 at a concrete tree and the empty buffer. -/
theorem matchGo_total_parent_chain_witness :
    parentIter
        (MIME.matchGo ⟨fun _ => "", fun _ => "", fun _ => ""⟩ [] 0
          (.mk "w2/r" [] [] "" (fun _ _ => false)
            [MIME.mk "w2/a" [] [] "" (fun _ _ => true) []]) []).chain.length
        (MIME.matchGo ⟨fun _ => "", fun _ => "", fun _ => ""⟩ [] 0
          (.mk "w2/r" [] [] "" (fun _ _ => false)
            [MIME.mk "w2/a" [] [] "" (fun _ _ => true) []]) []) = none
    ∧ (MIME.matchGo ⟨fun _ => "", fun _ => "", fun _ => ""⟩ [] 0
        (.mk "w2/r" [] [] "" (fun _ _ => false)
          [MIME.mk "w2/a" [] [] "" (fun _ _ => true) []]) []).rootOf.parent = none :=
  ⟨(matchGo_total_parent_chain ⟨fun _ => "", fun _ => "", fun _ => ""⟩
      (.mk "w2/r" [] [] "" (fun _ _ => false)
        [MIME.mk "w2/a" [] [] "" (fun _ _ => true) []]) [] 0).2.1,
   (matchGo_total_parent_chain ⟨fun _ => "", fun _ => "", fun _ => ""⟩
      (.mk "w2/r" [] [] "" (fun _ _ => false)
        [MIME.mk "w2/a" [] [] "" (fun _ _ => true) []]) [] 0).2.2.1⟩

/-- Claim C5 (amended): for a terminal node, the registered charset
function of its family — and only of the three distinguished families —
is invoked on the full raw buffer (`input`, never truncated by `lim`); a
non-empty label is recorded as the result's "charset" parameter, winning
over the node's own parameters; an empty label, or a terminal node of any
other type, gains nothing from augmentation, so the result's "charset"
parameter is exactly whatever the terminal node's own construction-time
parameters carry (in particular absent when they carry none). -/
theorem charset_augmentation_amended (cs : CharsetFns) (input : List Nat) (lim : Nat)
    (t : String) (al : List String) (ps : Params) (ext : String) (det : Detector)
    (children anc : List MIME)
    (h : ∀ c ∈ children, c.detector input lim = false) :
    (t = types.TEXT →
      lookupParam (MIME.matchGo cs input lim (.mk t al ps ext det children) anc).params "charset"
        = if cs.FromPlain input = "" then lookupParam ps "charset"
          else some (cs.FromPlain input))
    ∧ (t = types.HTML →
      lookupParam (MIME.matchGo cs input lim (.mk t al ps ext det children) anc).params "charset"
        = if cs.FromHTML input = "" then lookupParam ps "charset"
          else some (cs.FromHTML input))
    ∧ (t = types.XML →
      lookupParam (MIME.matchGo cs input lim (.mk t al ps ext det children) anc).params "charset"
        = if cs.FromXML input = "" then lookupParam ps "charset"
          else some (cs.FromXML input))
    ∧ (t ≠ types.TEXT → t ≠ types.HTML → t ≠ types.XML →
      (MIME.matchGo cs input lim (.mk t al ps ext det children) anc).params = ps) := by
  have hp : (MIME.matchGo cs input lim (.mk t al ps ext det children) anc).params
      = mergeParams ps (charsetFor cs t input) := by
    rw [matchGo_reject cs input lim (.mk t al ps ext det children) anc h,
        cloneHierarchy_params]
    rfl
  have hht : types.HTML ≠ types.TEXT := by decide
  have hxt : types.XML ≠ types.TEXT := by decide
  have hxh : types.XML ≠ types.HTML := by decide
  refine ⟨?_, ?_, ?_, ?_⟩
  · intro ht
    subst ht
    rw [hp]
    by_cases he : cs.FromPlain input = ""
    · simp [charsetFor, needsCharset, he, mergeParams_nil]
    · simp [charsetFor, needsCharset, he, lookupParam_merge_single]
  · intro ht
    subst ht
    rw [hp]
    by_cases he : cs.FromHTML input = ""
    · simp [charsetFor, needsCharset, he, hht, mergeParams_nil]
    · simp [charsetFor, needsCharset, he, hht, lookupParam_merge_single]
  · intro ht
    subst ht
    rw [hp]
    by_cases he : cs.FromXML input = ""
    · simp [charsetFor, needsCharset, he, hxt, hxh, mergeParams_nil]
    · simp [charsetFor, needsCharset, he, hxt, hxh, lookupParam_merge_single]
  · intro h1 h2 h3
    rw [hp]
    simp [charsetFor, needsCharset, h1, h2, h3, mergeParams_nil]

/-- Witness for the amended C5: a text/plain terminal with a detected
label gets it as the charset parameter. -/
theorem charset_augmentation_amended_witness :
    lookupParam
        (MIME.matchGo ⟨fun _ => "x-label", fun _ => "", fun _ => ""⟩ [7] 0
          (.mk "text/plain" [] [] ".txt" (fun _ _ => false) []) []).params "charset"
      = some "x-label" := by
  have := (charset_augmentation_amended ⟨fun _ => "x-label", fun _ => "", fun _ => ""⟩
    [7] 0 "text/plain" [] [] ".txt" (fun _ _ => false) [] []
    (by intro c hc; simp [MIME.children] at hc)).1 (by rfl)
  simpa using this

/-- Counterexample to C5 as stated: a terminal node outside the three
families whose own construction-time parameters contain "charset" yields a
result that does carry a "charset" parameter, although the claim says such
terminals get none. -/
theorem charset_other_family_param_cex :
    lookupParam
        (MIME.matchGo ⟨fun _ => "", fun _ => "", fun _ => ""⟩ [] 0
          (.mk "application/x-cex" [] [("charset", "bar")] ".cx" (fun _ _ => false) []) []).params
        "charset" = some "bar"
    ∧ ("application/x-cex" : String) ≠ types.TEXT
    ∧ ("application/x-cex" : String) ≠ types.HTML
    ∧ ("application/x-cex" : String) ≠ types.XML := by
  have h1 : ("application/x-cex" : String) ≠ types.TEXT := by decide
  have h2 : ("application/x-cex" : String) ≠ types.HTML := by decide
  have h3 : ("application/x-cex" : String) ≠ types.XML := by decide
  refine ⟨?_, h1, h2, h3⟩
  rw [matchGo_reject _ _ _ _ _ (by intro c hc; simp [MIME.children] at hc),
      cloneHierarchy_params]
  simp only [MIME.params, MIME.typ]
  simp [charsetFor, needsCharset, h1, h2, h3, mergeParams_nil, lookupParam]

/-- Claim C6: the returned result's parameter map is built from the
terminal node's own construction-time parameters overlaid by the optional
charset parameters (new value wins on key collision — second conjunct),
and the chain of parameter maps of the result is exactly that merged map
followed by each ancestor's own construction-time map: no ancestor clone
receives the charset parameter. -/
theorem clone_params_merge_chain (cs : CharsetFns) (input : List Nat) (lim : Nat)
    (t : String) (al : List String) (ps : Params) (ext : String) (det : Detector)
    (children anc : List MIME)
    (h : ∀ c ∈ children, c.detector input lim = false) :
    ((MIME.matchGo cs input lim (.mk t al ps ext det children) anc).chain.map RMIME.params
        = mergeParams ps (charsetFor cs t input) :: anc.map MIME.params)
    ∧ (∀ (p : Params) (k v k' : String),
        lookupParam (mergeParams p [(k, v)]) k'
          = if k = k' then some v else lookupParam p k') := by
  constructor
  · rw [matchGo_reject cs input lim (.mk t al ps ext det children) anc h,
        cloneHierarchy_chain_params]
    rfl
  · exact fun p k v k' => lookupParam_merge_single p k v k'

/-- Witness for C6: terminal with params `[("a","b")]` and a detected
charset; one ancestor keeps exactly its own params. -/
theorem clone_params_merge_chain_witness :
    (MIME.matchGo ⟨fun _ => "x-label", fun _ => "", fun _ => ""⟩ [] 0
        (.mk "text/plain" [] [("a", "b")] ".txt" (fun _ _ => false) [])
        [MIME.mk "r/t" [] [("p", "q")] "" (fun _ _ => false) []]).chain.map RMIME.params
      = [[("a", "b"), ("charset", "x-label")], [("p", "q")]] := by
  have := (clone_params_merge_chain ⟨fun _ => "x-label", fun _ => "", fun _ => ""⟩
    [] 0 "text/plain" [] [("a", "b")] ".txt" (fun _ _ => false) []
    [MIME.mk "r/t" [] [("p", "q")] "" (fun _ _ => false) []]
    (by intro c hc; simp [MIME.children] at hc)).1
  rw [this]
  have hcf : charsetFor ⟨fun _ => "x-label", fun _ => "", fun _ => ""⟩ "text/plain" []
      = [("charset", "x-label")] := by
    simp [charsetFor, needsCharset, types.TEXT]
  rw [hcf]
  rfl

/-! `Is` and the parser: characterisation lemmas. -/

lemma Is_eq_iff (m : MIME) (e : String) :
    (MIME.Is m e = true) ↔
      ((parseMediaType e).2.1 = m.typ ∨ (parseMediaType e).2.1 ∈ m.aliases) := by
  simp only [MIME.Is]
  by_cases h : (parseMediaType e).2.1 = m.typ
  · simp [h]
  · simp only [h, if_false, false_or]
    simp [List.contains, List.elem_iff, h]

lemma paramLoop_mediatype : ∀ (fuel : Nat) (mt : String) (p : Params) (cm : ContMap)
    (v : List Char), (paramLoop fuel mt p cm v).2.1 = mt ∨ (paramLoop fuel mt p cm v).2.1 = "" := by
  intro fuel
  induction fuel with
  | zero => intro mt p cm v; right; rfl
  | succ fuel ih =>
    intro mt p cm v
    simp only [paramLoop]
    split
    · left; rfl
    · split
      · left; rfl
      · split
        · split
          · left; rfl
          · left; rfl
        · split
          · split
            · split
              · right; rfl
              · exact ih mt p _ _
            · exact ih mt p _ _
          · split
            · split
              · right; rfl
              · exact ih mt _ cm _
            · exact ih mt _ cm _

lemma paramLoop_fail_params : ∀ (fuel : Nat) (mt : String) (p : Params) (cm : ContMap)
    (v : List Char), (paramLoop fuel mt p cm v).1 = false →
      (paramLoop fuel mt p cm v).2.2 = [] := by
  intro fuel
  induction fuel with
  | zero => intro mt p cm v _; rfl
  | succ fuel ih =>
    intro mt p cm v
    simp only [paramLoop]
    split
    · intro h; exact absurd h (by simp)
    · split
      · intro h; exact absurd h (by simp)
      · split
        · split
          · intro h; exact absurd h (by simp)
          · intro _; rfl
        · split
          · split
            · split
              · intro _; rfl
              · exact ih mt p _ _
            · exact ih mt p _ _
          · split
            · split
              · intro _; rfl
              · exact ih mt _ cm _
            · exact ih mt _ cm _

/-- Lemma: `ParseMediaType` reports either the empty string or the lower-cased
trimmed base media type, never anything else (in particular never the
verbatim input when that differs). -/
lemma parseMediaType_mediatype (v : String) :
    (parseMediaType v).2.1 = "" ∨ (parseMediaType v).2.1 = mediatypeOf v := by
  rw [parseMediaType]
  split
  · left; rfl
  · rcases paramLoop_mediatype (v.toList.length + 1)
      (String.mk (lowerChars (trimChars (v.toList.takeWhile (fun c => !(c == ';')))))) [] []
      (v.toList.drop (v.toList.takeWhile (fun c => !(c == ';'))).length) with h | h
    · right; rw [h]; rfl
    · left; rw [h]

/-- On parse failure the reported parameter set is empty. -/
lemma parseMediaType_fail_params (v : String) (h : (parseMediaType v).1 = false) :
    (parseMediaType v).2.2 = [] := by
  rw [parseMediaType] at h ⊢
  revert h
  split
  · intro _; rfl
  · intro h
    exact paramLoop_fail_params _ _ _ _ _ h

/-- Claim C7: for every node and every expected string that parses as a
media type, `Is` holds iff the parsed base type (parameters discarded,
lower-cased and trimmed by parsing, compared exactly otherwise) equals the
node's type or one of its aliases; in particular
`Is "text/html; charset=UTF-8"` holds on any node of type "text/html". -/
theorem Is_parsed_base_iff (m : MIME) (e : String) (base : String) (prms : Params)
    (h : parseMediaType e = (true, base, prms)) :
    ((MIME.Is m e = true) ↔ (base = m.typ ∨ base ∈ m.aliases))
    ∧ (∀ d : Detector,
        MIME.Is (.mk "text/html" [] [] ".html" d []) "text/html; charset=UTF-8" = true) := by
  constructor
  · have hiff := Is_eq_iff m e
    rw [h] at hiff
    exact hiff
  · intro d
    have hp : parseMediaType "text/html; charset=UTF-8"
        = (true, "text/html", [("charset", "UTF-8")]) := by decide
    have hiff := Is_eq_iff (.mk "text/html" [] [] ".html" d []) "text/html; charset=UTF-8"
    rw [hp] at hiff
    exact hiff.mpr (Or.inl rfl)

/-- Witness for C7: a parsed expected string with parameters and mixed
case matches a node carrying exactly that base type. -/
theorem Is_parsed_base_iff_witness :
    MIME.Is (.mk "text/html" ["x/y"] [] "" (fun _ _ => false) []) " TEXT/Html ; charset=x" = true :=
  ((Is_parsed_base_iff (.mk "text/html" ["x/y"] [] "" (fun _ _ => false) [])
    " TEXT/Html ; charset=x" "text/html" [("charset", "x")] (by decide)).1).mpr (Or.inl rfl)

/-- Claim C8 (amended): when the expected string fails to parse, `Is` does
not fall back to the verbatim string; it compares the media type
`ParseMediaType` returned alongside the discarded error, which is either
the empty string (invalid media type or duplicate parameter) or the
lower-cased trimmed base media type (invalid parameter section). -/
theorem Is_parse_failure_amended (m : MIME) (e : String)
    (_h : (parseMediaType e).1 = false) :
    ((MIME.Is m e = true) ↔
      ((parseMediaType e).2.1 = m.typ ∨ (parseMediaType e).2.1 ∈ m.aliases))
    ∧ ((parseMediaType e).2.1 = "" ∨ (parseMediaType e).2.1 = mediatypeOf e) :=
  ⟨Is_eq_iff m e, parseMediaType_mediatype e⟩

/-- Witness for the amended C8: `"a b"` fails to parse and `Is` compares
the empty string, matching a node whose type is the empty string. -/
theorem Is_parse_failure_amended_witness :
    MIME.Is (.mk "" [] [] "" (fun _ _ => false) []) "a b" = true := by
  have h := (Is_parse_failure_amended (.mk "" [] [] "" (fun _ _ => false) []) "a b"
    (by decide)).1
  have hp : (parseMediaType "a b").2.1 = "" := by decide
  rw [hp] at h
  exact h.mpr (Or.inl rfl)

/-- Counterexample to C8 as stated: `"a b"` fails to parse as a media
type; on a node whose type is exactly `"a b"` the claimed verbatim
comparison would make `Is "a b"` true, but it is false. -/
theorem Is_unparseable_not_verbatim_cex :
    (parseMediaType "a b").1 = false
    ∧ MIME.Is (.mk "a b" [] [] "" (fun _ _ => false) []) "a b" = false
    ∧ (MIME.mk "a b" [] [] "" (fun _ _ => false) []).typ = "a b" := by
  refine ⟨by decide, ?_, rfl⟩
  have h := Is_eq_iff (.mk "a b" [] [] "" (fun _ _ => false) []) "a b"
  have hp : (parseMediaType "a b").2.1 = "" := by decide
  rw [hp] at h
  have hne : ¬ (MIME.Is (.mk "a b" [] [] "" (fun _ _ => false) []) "a b" = true) := by
    rw [h]
    decide
  simpa using hne

/-- Claim C9: when the type string passed to `Extend` fails to parse,
`Extend` surfaces no error (it has no results in Go; here it simply
returns the updated tree) and registers the new node with an empty
parameter set — and the empty media type the parser reported — prepended
to the children. -/
theorem Extend_parse_failure_defaults (m : MIME) (det : Detector)
    (mimestr ext : String) (al : List String)
    (h : (parseMediaType mimestr).1 = false) :
    (parseMediaType mimestr).2.2 = []
    ∧ (MIME.Extend m det mimestr ext al).children
        = (MIME.mk (parseMediaType mimestr).2.1 al [] ext det []) :: m.children
    ∧ (MIME.Extend m det mimestr ext al).typ = m.typ := by
  have hp := parseMediaType_fail_params mimestr h
  refine ⟨hp, ?_, ?_⟩
  · simp only [MIME.Extend, MIME.children, hp]
  · simp [MIME.Extend, MIME.typ]

/-- Witness for C9: `"b@d"` fails to parse; the registered node has type
`""`, the given aliases, detector and extension, and no parameters. -/
theorem Extend_parse_failure_defaults_witness :
    (MIME.Extend (.mk "r/r" [] [] "" (fun _ _ => false) []) (fun _ _ => true) "b@d" ".x"
        ["a/l"]).children
      = (MIME.mk "" ["a/l"] [] ".x" (fun _ _ => true) [])
          :: (MIME.mk "r/r" [] [] "" (fun _ _ => false) []).children := by
  have h0 : (parseMediaType "b@d").2.1 = "" := by decide
  have h := (Extend_parse_failure_defaults (.mk "r/r" [] [] "" (fun _ _ => false) [])
    (fun _ _ => true) "b@d" ".x" ["a/l"] (by decide)).2.1
  rw [h0] at h
  exact h

/-! Store-model lemmas: closed forms for allocation. -/

lemma readSlice_mk (h : Heap) (objs : List GoMIME) (oc : Option Nat) :
    (Heap.mk objs h.slices).readSlice oc = h.readSlice oc := by
  cases oc <;> rfl

lemma ancObjs_length : ∀ (l : List MIME) (base : Nat), (ancObjs base l).length = l.length := by
  intro l
  induction l with
  | nil => intro base; rfl
  | cons p rest ih => intro base; simp [ancObjs, ih]

lemma chainObjs_length (base : Nat) (m : MIME) (anc : List MIME) (ps : Params) :
    (chainObjs base m anc ps).length = anc.length + 1 := by
  simp [chainObjs, ancObjs_length]

lemma cloneHierarchyLoop_spec : ∀ (anc : List MIME) (pre : List GoMIME) (o : GoMIME)
    (sl : List (List Nat)),
    cloneHierarchyLoop ⟨pre ++ [o], sl⟩ pre.length anc
      = ⟨pre ++ (if anc.isEmpty then o
            else ⟨o.typ, o.aliases, o.params, o.extension, o.detector, o.children,
              some (pre.length + 1)⟩) :: ancObjs (pre.length + 1) anc, sl⟩ := by
  intro anc
  induction anc with
  | nil => intro pre o sl; rw [cloneHierarchyLoop]; simp [ancObjs]
  | cons p rest ih =>
    intro pre o sl
    rw [cloneHierarchyLoop]
    simp only [cloneS, Heap.allocObj]
    have hget : (Heap.mk ((pre ++ [o]) ++
        [⟨p.typ, p.aliases, mergeParams p.params [], p.extension, none, none, none⟩]) sl).getObj
          pre.length = some o := by
      simp only [Heap.getObj]
      rw [List.append_assoc, List.getElem?_append_right (le_refl pre.length)]
      simp
    rw [hget]
    simp only [Heap.setObj]
    have hset : (((pre ++ [o]) ++
        [(⟨p.typ, p.aliases, mergeParams p.params [], p.extension, none, none, none⟩ : GoMIME)]).set
          pre.length
          (⟨o.typ, o.aliases, o.params, o.extension, o.detector, o.children,
            some ((pre ++ [o]).length)⟩ : GoMIME))
        = (pre ++ [(⟨o.typ, o.aliases, o.params, o.extension, o.detector, o.children,
            some (pre.length + 1)⟩ : GoMIME)]) ++
          [(⟨p.typ, p.aliases, mergeParams p.params [], p.extension, none, none, none⟩ : GoMIME)] := by
      rw [List.append_assoc, List.set_append_right]
      · simp [List.append_assoc]
      · omega
    rw [hset]
    have hlen : (pre ++ [o]).length = pre.length + 1 := by simp
    rw [hlen]
    have hrec := ih (pre ++ [⟨o.typ, o.aliases, o.params, o.extension, o.detector, o.children,
      some (pre.length + 1)⟩])
      ⟨p.typ, p.aliases, mergeParams p.params [], p.extension, none, none, none⟩ sl
    rw [List.length_append] at hrec
    simp only [List.length_singleton] at hrec
    rw [hrec]
    simp only [ancObjs, List.isEmpty_cons, if_false, Bool.false_eq_true, List.append_assoc,
      List.singleton_append]
    cases hrest : rest.isEmpty <;> simp [ancObjs]

lemma cloneHierarchyS_spec (h : Heap) (m : MIME) (anc : List MIME) (ps : Params) :
    cloneHierarchyS h m anc ps
      = (h.objs.length, ⟨h.objs ++ chainObjs h.objs.length m anc ps, h.slices⟩) := by
  simp only [cloneHierarchyS, cloneS, Heap.allocObj]
  have := cloneHierarchyLoop_spec anc h.objs
    ⟨m.typ, m.aliases, mergeParams m.params ps, m.extension, none, none, none⟩ h.slices
  rw [this]
  simp only [chainObjs]
  cases hanc : anc.isEmpty <;> simp

lemma matchS_spec (cs : CharsetFns) (h : Heap) (t : MIME) (input : List Nat) (lim : Nat) :
    matchS cs h t [] input lim
      = (h.objs.length,
          ⟨h.objs ++ chainObjs h.objs.length (terminalNode input lim t []).1
              (terminalNode input lim t []).2
              (charsetFor cs (terminalNode input lim t []).1.typ input),
            h.slices⟩) := by
  simp only [matchS]
  exact cloneHierarchyS_spec h _ _ _

lemma ancObjs_obsG : ∀ (l : List MIME) (base base' : Nat),
    (ancObjs base l).map GoMIME.obsG = (ancObjs base' l).map GoMIME.obsG := by
  intro l
  induction l with
  | nil => intro base base'; rfl
  | cons p rest ih => intro base base'; simp [ancObjs, GoMIME.obsG, ih (base + 1) (base' + 1)]

lemma chainObjs_obsG (m : MIME) (anc : List MIME) (ps : Params) (base base' : Nat) :
    (chainObjs base m anc ps).map GoMIME.obsG = (chainObjs base' m anc ps).map GoMIME.obsG := by
  simp [chainObjs, GoMIME.obsG, ancObjs_obsG anc (base + 1) (base' + 1)]

/-- The observable content of a match's allocated chain is the same from
any starting heap: matching reads only the canonical tree. -/
lemma matchedChainObs_indep (cs : CharsetFns) (h h' : Heap) (t : MIME)
    (input : List Nat) (lim : Nat) :
    matchedChainObs cs h t input lim = matchedChainObs cs h' t input lim := by
  simp only [matchedChainObs, matchS_spec, List.drop_left]
  exact chainObjs_obsG _ _ _ _ _

lemma ancObjs_shape : ∀ (l : List MIME) (base : Nat) (o : GoMIME), o ∈ ancObjs base l →
    o.children = none ∧ o.detector = none ∧
      (o.parent = none ∨ ∃ j, o.parent = some j ∧ base < j ∧ j < base + l.length) := by
  intro l
  induction l with
  | nil => intro base o ho; simp [ancObjs] at ho
  | cons p rest ih =>
    intro base o ho
    rw [ancObjs] at ho
    rcases List.mem_cons.mp ho with h1 | h2
    · subst h1
      refine ⟨rfl, rfl, ?_⟩
      cases hrest : rest.isEmpty with
      | true => left; simp [hrest]
      | false =>
        right
        refine ⟨base + 1, by simp [hrest], by omega, ?_⟩
        have : rest.length ≥ 1 := by
          cases rest with
          | nil => simp at hrest
          | cons a b => simp
        simp only [List.length_cons]
        omega
    · obtain ⟨hc, hd, hp⟩ := ih (base + 1) o h2
      refine ⟨hc, hd, ?_⟩
      rcases hp with hp | ⟨j, hj, hj1, hj2⟩
      · left; exact hp
      · right
        refine ⟨j, hj, by omega, ?_⟩
        simp only [List.length_cons]
        omega

lemma chainObjs_shape (base : Nat) (m : MIME) (anc : List MIME) (ps : Params) :
    ∀ o ∈ chainObjs base m anc ps,
      o.children = none ∧ o.detector = none ∧
        (o.parent = none ∨ ∃ j, o.parent = some j ∧ base < j ∧
          j < base + (chainObjs base m anc ps).length) := by
  intro o ho
  rw [chainObjs] at ho
  rw [chainObjs_length]
  rcases List.mem_cons.mp ho with h1 | h2
  · subst h1
    refine ⟨rfl, rfl, ?_⟩
    cases hanc : anc.isEmpty with
    | true => left; simp [hanc]
    | false =>
      right
      refine ⟨base + 1, by simp [hanc], by omega, ?_⟩
      have : anc.length ≥ 1 := by
        cases anc with
        | nil => simp at hanc
        | cons a b => simp
      omega
  · obtain ⟨hc, hd, hp⟩ := ancObjs_shape anc (base + 1) o h2
    refine ⟨hc, hd, ?_⟩
    rcases hp with hp | ⟨j, hj, hj1, hj2⟩
    · left; exact hp
    · right
      refine ⟨j, hj, by omega, by omega⟩

lemma ExtendS_spec (h : Heap) (a : Nat) (m : GoMIME) (hm : h.getObj a = some m)
    (det : Detector) (mimestr ext : String) (al : List String) :
    ExtendS h a det mimestr ext al
      = ⟨(h.objs ++ [(⟨(parseMediaType mimestr).2.1, al, (parseMediaType mimestr).2.2, ext,
            some det, none, some a⟩ : GoMIME)]).set a
            ⟨m.typ, m.aliases, m.params, m.extension, m.detector, some h.slices.length,
              m.parent⟩,
          h.slices ++ [h.objs.length :: h.readSlice m.children]⟩ := by
  rw [ExtendS]
  rw [hm]
  simp only [Heap.allocObj, Heap.allocSlice, Heap.setObj]
  rw [readSlice_mk]

/-- Evaluation of a store-level match of `wLeaf` from any heap: one fresh
object is allocated. -/
lemma matchS_wLeaf_eval (h : Heap) :
    matchS csEmpty h wLeaf [] [] 0 = (h.objs.length, ⟨h.objs ++ [wLeafObj], h.slices⟩) := by
  rw [matchS_spec]
  rw [terminalNode_reject [] 0 wLeaf [] (by intro c hc; simp [wLeaf, MIME.children] at hc)]
  have hps : charsetFor csEmpty wLeaf.typ [] = [] := by decide
  rw [hps]
  have hcf : chainObjs h.objs.length wLeaf [] [] = [wLeafObj] := by
    simp [chainObjs, ancObjs, wLeaf, wLeafObj, MIME.typ, MIME.aliases, MIME.params,
      MIME.extension, mergeParams_nil]
  rw [hcf]

/-- Claim C3: `Extend` (1) builds the childless node from the parsed type
string, the given detector, extension and aliases, and prepends it to the
children list; (2) at the store level the new node's `parent` points at
the target, the target's `children` field is redirected to a freshly
allocated slice `new :: old`, and the previously published slice object is
left unmodified; (3) priority: a node with children [always-reject,
always-accept] matches into the second child's subtree, and after `Extend`
with an always-accepting detector it matches into the new subtree. -/
theorem Extend_prepend_cow_priority :
    (∀ (m : MIME) (det : Detector) (ms ext : String) (al : List String),
      (MIME.Extend m det ms ext al).children
        = (MIME.mk (parseMediaType ms).2.1 al (parseMediaType ms).2.2 ext det []) :: m.children
      ∧ (MIME.Extend m det ms ext al).typ = m.typ
      ∧ (MIME.Extend m det ms ext al).params = m.params)
    ∧ (∀ (h : Heap) (a : Nat) (mObj : GoMIME) (sp : Nat) (old : List Nat)
        (det : Detector) (ms ext : String) (al : List String),
        h.getObj a = some mObj → mObj.children = some sp → h.slices[sp]? = some old →
          (ExtendS h a det ms ext al).slices[sp]? = some old
          ∧ (ExtendS h a det ms ext al).getObj a
              = some ⟨mObj.typ, mObj.aliases, mObj.params, mObj.extension, mObj.detector,
                  some h.slices.length, mObj.parent⟩
          ∧ (ExtendS h a det ms ext al).slices[h.slices.length]?
              = some (h.objs.length :: old)
          ∧ (ExtendS h a det ms ext al).getObj h.objs.length
              = some ⟨(parseMediaType ms).2.1, al, (parseMediaType ms).2.2, ext, some det,
                  none, some a⟩)
    ∧ ((MIME.matchGo csEmpty [] 0
          (.mk "d/zero" [] [] "" (fun _ _ => false)
            [.mk "d/one" [] [] "" (fun _ _ => false) [],
             .mk "d/two" [] [] "" (fun _ _ => true) []]) []).typ = "d/two"
        ∧ (MIME.matchGo csEmpty [] 0
            ((MIME.mk "d/zero" [] [] "" (fun _ _ => false)
              [.mk "d/one" [] [] "" (fun _ _ => false) [],
               .mk "d/two" [] [] "" (fun _ _ => true) []]).Extend
                (fun _ _ => true) "d/three" "" []) []).typ = "d/three") := by
  refine ⟨?_, ?_, ?_, ?_⟩
  · intro m det ms ext al
    refine ⟨?_, ?_, ?_⟩
    · simp only [MIME.Extend, MIME.children]
    · simp [MIME.Extend, MIME.typ]
    · simp [MIME.Extend, MIME.params]
  · intro h a mObj sp old det ms ext al hm hsp hold
    have hspLt : sp < h.slices.length := (List.getElem?_eq_some.mp hold).1
    have haLt : a < h.objs.length := by
      have := (List.getElem?_eq_some.mp (show h.objs[a]? = some mObj from hm)).1
      exact this
    rw [ExtendS_spec h a mObj hm det ms ext al]
    refine ⟨?_, ?_, ?_, ?_⟩
    · show (h.slices ++ [h.objs.length :: h.readSlice mObj.children])[sp]? = some old
      rw [List.getElem?_append, if_pos hspLt]
      exact hold
    · show ((h.objs ++ [_]).set a _)[a]? = _
      rw [List.getElem?_set_self (by simp; omega)]
    · show (h.slices ++ [h.objs.length :: h.readSlice mObj.children])[h.slices.length]?
        = some (h.objs.length :: old)
      rw [List.getElem?_append_right (le_refl _)]
      simp only [Nat.sub_self, List.getElem?_cons_zero]
      rw [hsp]
      simp only [Heap.readSlice, hold]
      rfl
    · show ((h.objs ++ [_]).set a _)[h.objs.length]? = _
      rw [List.getElem?_set_ne (by omega)]
      rw [List.getElem?_append_right (le_refl _)]
      simp
  · have hsplit : ([MIME.mk "d/one" [] [] "" (fun _ _ => false) [],
        MIME.mk "d/two" [] [] "" (fun _ _ => true) []] : List MIME)
        = [MIME.mk "d/one" [] [] "" (fun _ _ => false) []]
            ++ (MIME.mk "d/two" [] [] "" (fun _ _ => true) []) :: [] := rfl
    rw [hsplit]
    rw [matchGo_descend csEmpty [] 0 "d/zero" [] [] "" (fun _ _ => false)
      [MIME.mk "d/one" [] [] "" (fun _ _ => false) []]
      (MIME.mk "d/two" [] [] "" (fun _ _ => true) []) [] []
      (by intro p hp; simp at hp; rw [hp]; rfl) rfl]
    rw [matchGo_reject csEmpty [] 0 (MIME.mk "d/two" [] [] "" (fun _ _ => true) []) _
      (by intro c hc; simp [MIME.children] at hc)]
    rw [cloneHierarchy_typ]
    rfl
  · have hp3 : parseMediaType "d/three" = (true, "d/three", []) := by decide
    have hext : (MIME.mk "d/zero" [] [] "" (fun _ _ => false)
        [MIME.mk "d/one" [] [] "" (fun _ _ => false) [],
         MIME.mk "d/two" [] [] "" (fun _ _ => true) []]).Extend
          (fun _ _ => true) "d/three" "" []
        = MIME.mk "d/zero" [] [] "" (fun _ _ => false)
            ((MIME.mk "d/three" [] [] "" (fun _ _ => true) [])
              :: [MIME.mk "d/one" [] [] "" (fun _ _ => false) [],
                  MIME.mk "d/two" [] [] "" (fun _ _ => true) []]) := by
      simp only [MIME.Extend, hp3, MIME.typ, MIME.aliases, MIME.params, MIME.extension,
        MIME.detector, MIME.children]
    rw [hext]
    have := matchGo_descend csEmpty [] 0 "d/zero" [] [] "" (fun _ _ => false)
      [] (MIME.mk "d/three" [] [] "" (fun _ _ => true) [])
      [MIME.mk "d/one" [] [] "" (fun _ _ => false) [],
       MIME.mk "d/two" [] [] "" (fun _ _ => true) []] []
      (by intro p hp; simp at hp) rfl
    rw [List.nil_append] at this
    rw [this]
    rw [matchGo_reject csEmpty [] 0 (MIME.mk "d/three" [] [] "" (fun _ _ => true) []) _
      (by intro c hc; simp [MIME.children] at hc)]
    rw [cloneHierarchy_typ]
    rfl

/-- Witness for C3 at a concrete heap: the old slice object is intact and
the new slice has the new node's address prepended. -/
theorem Extend_prepend_cow_priority_witness :
    (ExtendS ⟨[⟨"t/p", [], [], "", none, some 0, none⟩], [[7]]⟩ 0
        (fun _ _ => true) "x/y" ".x" []).slices[0]? = some [7]
    ∧ (ExtendS ⟨[⟨"t/p", [], [], "", none, some 0, none⟩], [[7]]⟩ 0
        (fun _ _ => true) "x/y" ".x" []).slices[1]? = some [1, 7] := by
  have h := Extend_prepend_cow_priority.2.1
    ⟨[⟨"t/p", [], [], "", none, some 0, none⟩], [[7]]⟩ 0
    ⟨"t/p", [], [], "", none, some 0, none⟩ 0 [7]
    (fun _ _ => true) "x/y" ".x" [] rfl rfl (by rfl)
  refine ⟨h.1, ?_⟩
  have h2 := h.2.2.1
  simp only [Heap.slices] at h2 ⊢
  simpa using h2

/-- Claim C4: two results of two separate `matchS` calls live at distinct
fresh addresses; writing a parameter on the first updates exactly its
object, every object of the second result's chain reads back unchanged,
and a subsequent match of the same input against the canonical tree
yields a chain with identical observable content (type, aliases,
parameters, extension). -/
theorem match_results_independent (cs : CharsetFns) (t : MIME) (input : List Nat) (lim : Nat)
    (h0 : Heap) (k v : String) (r1 r2 : Nat) (h1 h2 : Heap)
    (e1 : matchS cs h0 t [] input lim = (r1, h1))
    (e2 : matchS cs h1 t [] input lim = (r2, h2)) :
    r1 ≠ r2
    ∧ (∃ o, h2.getObj r1 = some o)
    ∧ (∀ o, h2.getObj r1 = some o →
        (setParamS h2 r1 k v).getObj r1
          = some ⟨o.typ, o.aliases, setParam o.params k v, o.extension, o.detector,
              o.children, o.parent⟩)
    ∧ (∀ i, r2 ≤ i → (setParamS h2 r1 k v).getObj i = h2.getObj i)
    ∧ matchedChainObs cs (setParamS h2 r1 k v) t input lim
        = matchedChainObs cs h0 t input lim := by
  rw [matchS_spec] at e1
  have hr1 : r1 = h0.objs.length := (congrArg Prod.fst e1).symm
  have hh1 : h1 = ⟨h0.objs ++ chainObjs h0.objs.length (terminalNode input lim t []).1
      (terminalNode input lim t []).2
      (charsetFor cs (terminalNode input lim t []).1.typ input), h0.slices⟩ :=
    (congrArg Prod.snd e1).symm
  rw [matchS_spec] at e2
  have hr2 : r2 = h1.objs.length := (congrArg Prod.fst e2).symm
  have hh2 : h2 = ⟨h1.objs ++ chainObjs h1.objs.length (terminalNode input lim t []).1
      (terminalNode input lim t []).2
      (charsetFor cs (terminalNode input lim t []).1.typ input), h1.slices⟩ :=
    (congrArg Prod.snd e2).symm
  have hKlen : ∀ b : Nat, (chainObjs b (terminalNode input lim t []).1
      (terminalNode input lim t []).2
      (charsetFor cs (terminalNode input lim t []).1.typ input)).length
        = (terminalNode input lim t []).2.length + 1 := fun b => chainObjs_length b _ _ _
  have hlen1 : h1.objs.length = h0.objs.length + ((terminalNode input lim t []).2.length + 1) := by
    rw [hh1]
    simp [hKlen]
  have hlen2 : h2.objs.length = h1.objs.length + ((terminalNode input lim t []).2.length + 1) := by
    rw [hh2]
    simp [hKlen]
  have hr1lt : r1 < h1.objs.length := by omega
  have hr1lt2 : r1 < h2.objs.length := by omega
  refine ⟨by omega, ?_, ?_, ?_, ?_⟩
  · exact ⟨h2.objs[r1], by
      show h2.objs[r1]? = _
      rw [List.getElem?_eq_getElem hr1lt2]⟩
  · intro o ho
    rw [setParamS, ho]
    show (h2.objs.set r1 _)[r1]? = _
    rw [List.getElem?_set_self (by omega)]
  · intro i hi
    rw [setParamS]
    cases hcase : h2.getObj r1 with
    | none => rfl
    | some o =>
      show (h2.objs.set r1 _)[i]? = h2.objs[i]?
      rw [List.getElem?_set_ne (by omega)]
  · exact matchedChainObs_indep cs _ h0 t input lim

/-- Witness for C4 at a concrete heap: the second result's object is
unchanged by the write, the first result's object took the parameter. -/
theorem match_results_independent_witness :
    (setParamS ⟨([] ++ [wLeafObj]) ++ [wLeafObj], []⟩ 0 "a" "b").getObj 1 = some wLeafObj
    ∧ (setParamS ⟨([] ++ [wLeafObj]) ++ [wLeafObj], []⟩ 0 "a" "b").getObj 0
        = some ⟨"t/w", [], [("a", "b")], "", none, none, none⟩ := by
  have hth := match_results_independent csEmpty wLeaf [] 0 ⟨[], []⟩ "a" "b"
    0 ([] ++ [wLeafObj]).length ⟨[] ++ [wLeafObj], []⟩ ⟨([] ++ [wLeafObj]) ++ [wLeafObj], []⟩
    (by simpa using matchS_wLeaf_eval ⟨[], []⟩)
    (by simpa using matchS_wLeaf_eval ⟨[] ++ [wLeafObj], []⟩)
  constructor
  · have := hth.2.2.2.1 1 (by simp)
    rw [this]
    rfl
  · have := hth.2.2.1 wLeafObj (by rfl)
    rw [this]
    rfl

/-- Claim C10: every object in a result chain has nil children and nil
detector and its parent pointer stays inside the chain (a result never
references a canonical tree node); `Extend` called on the result mutates
only that object (all other pre-existing objects and all pre-existing
slices read back unchanged); and subsequent matches of any input against
the canonical tree allocate chains with identical observable content. -/
theorem clone_chain_private_extend (cs : CharsetFns) (t : MIME) (input : List Nat) (lim : Nat)
    (h0 : Heap) (det : Detector) (ms ext : String) (al : List String) (r : Nat) (h1 : Heap)
    (e1 : matchS cs h0 t [] input lim = (r, h1)) :
    (∀ i, r ≤ i → i < h1.objs.length →
      ∃ o, h1.getObj i = some o ∧ o.children = none ∧ o.detector = none ∧
        (o.parent = none ∨ ∃ j, o.parent = some j ∧ r < j ∧ j < h1.objs.length))
    ∧ (∀ b, b < h1.objs.length → b ≠ r →
        (ExtendS h1 r det ms ext al).getObj b = h1.getObj b)
    ∧ (∀ sp, sp < h1.slices.length →
        (ExtendS h1 r det ms ext al).slices[sp]? = h1.slices[sp]?)
    ∧ (∀ (input' : List Nat) (lim' : Nat),
        matchedChainObs cs (ExtendS h1 r det ms ext al) t input' lim'
          = matchedChainObs cs h0 t input' lim') := by
  rw [matchS_spec] at e1
  have hr : r = h0.objs.length := (congrArg Prod.fst e1).symm
  have hh1 : h1 = ⟨h0.objs ++ chainObjs h0.objs.length (terminalNode input lim t []).1
      (terminalNode input lim t []).2
      (charsetFor cs (terminalNode input lim t []).1.typ input), h0.slices⟩ :=
    (congrArg Prod.snd e1).symm
  have hlen1 : h1.objs.length = h0.objs.length + ((terminalNode input lim t []).2.length + 1) := by
    rw [hh1]
    simp [chainObjs_length]
  have hrlt : r < h1.objs.length := by omega
  have hobjs : h1.objs = h0.objs ++ chainObjs h0.objs.length (terminalNode input lim t []).1
      (terminalNode input lim t []).2
      (charsetFor cs (terminalNode input lim t []).1.typ input) := by rw [hh1]
  refine ⟨?_, ?_, ?_, ?_⟩
  · intro i hi hilt
    have hK : h1.objs[i]?
        = (chainObjs h0.objs.length (terminalNode input lim t []).1
            (terminalNode input lim t []).2
            (charsetFor cs (terminalNode input lim t []).1.typ input))[i - h0.objs.length]? := by
      rw [hobjs]
      exact List.getElem?_append_right (by omega)
    have hlt : i - h0.objs.length < (chainObjs h0.objs.length (terminalNode input lim t []).1
        (terminalNode input lim t []).2
        (charsetFor cs (terminalNode input lim t []).1.typ input)).length := by
      rw [chainObjs_length]
      omega
    have hsome : h1.objs[i]? = some ((chainObjs h0.objs.length (terminalNode input lim t []).1
        (terminalNode input lim t []).2
        (charsetFor cs (terminalNode input lim t []).1.typ input))[i - h0.objs.length]) := by
      rw [hK]
      exact List.getElem?_eq_getElem hlt
    refine ⟨_, hsome, ?_⟩
    have hmem2 : (chainObjs h0.objs.length (terminalNode input lim t []).1
        (terminalNode input lim t []).2
        (charsetFor cs (terminalNode input lim t []).1.typ input))[i - h0.objs.length]
        ∈ chainObjs h0.objs.length (terminalNode input lim t []).1
            (terminalNode input lim t []).2
            (charsetFor cs (terminalNode input lim t []).1.typ input) :=
      List.getElem_mem hlt
    obtain ⟨hc, hd, hp⟩ := chainObjs_shape h0.objs.length _ _ _ _ hmem2
    refine ⟨hc, hd, ?_⟩
    rcases hp with hp | ⟨j, hj, hj1, hj2⟩
    · left; exact hp
    · right
      refine ⟨j, hj, by omega, ?_⟩
      rw [chainObjs_length] at hj2
      omega
  · intro b hb hbne
    obtain ⟨o0, ho0⟩ : ∃ o, h1.getObj r = some o := by
      refine ⟨h1.objs[r], ?_⟩
      show h1.objs[r]? = _
      exact List.getElem?_eq_getElem hrlt
    rw [ExtendS_spec h1 r o0 ho0]
    show ((h1.objs ++ [_]).set r _)[b]? = h1.objs[b]?
    rw [List.getElem?_set_ne (by omega)]
    rw [List.getElem?_append, if_pos hb]
  · intro sp hsp
    obtain ⟨o0, ho0⟩ : ∃ o, h1.getObj r = some o := by
      refine ⟨h1.objs[r], ?_⟩
      show h1.objs[r]? = _
      exact List.getElem?_eq_getElem hrlt
    rw [ExtendS_spec h1 r o0 ho0]
    show (h1.slices ++ [_])[sp]? = h1.slices[sp]?
    rw [List.getElem?_append, if_pos hsp]
  · intro input' lim'
    exact matchedChainObs_indep cs _ h0 t input' lim'

/-- Witness for C10 at a concrete heap: the single chain object has nil
children/detector, and a match after extending the result is
observationally unchanged. -/
theorem clone_chain_private_extend_witness :
    (∃ o, (Heap.mk ([] ++ [wLeafObj]) []).getObj 0 = some o ∧ o.children = none
      ∧ o.detector = none
      ∧ (o.parent = none ∨ ∃ j, o.parent = some j ∧ 0 < j
          ∧ j < (Heap.mk ([] ++ [wLeafObj]) []).objs.length))
    ∧ matchedChainObs csEmpty
        (ExtendS ⟨[] ++ [wLeafObj], []⟩ 0 (fun _ _ => true) "x/y" ".x" []) wLeaf [] 0
      = matchedChainObs csEmpty ⟨[], []⟩ wLeaf [] 0 := by
  have hth := clone_chain_private_extend csEmpty wLeaf [] 0 ⟨[], []⟩
    (fun _ _ => true) "x/y" ".x" [] 0 ⟨[] ++ [wLeafObj], []⟩
    (by simpa using matchS_wLeaf_eval ⟨[], []⟩)
  exact ⟨hth.1 0 (le_refl _) (by simp), hth.2.2.2 [] 0⟩
